import Mathlib

/-!
A shallow embedding of `src/minigrep/minigrep.cpp` and proofs about it.

Modelling conventions:
* C++ `int` is modelled as `Int` (every value the claims touch stays far
  below `2^31`, where C++ `int` arithmetic agrees with the mathematical
  integers), and `std::size_t` as `Nat`.  The implicit `int -> size_t`
  conversions at the C++ call sites are made explicit through `toSizeT`,
  which reduces modulo `2^64` exactly like the C++ conversion does.
* `std::string` contents are modelled as `List Char`.
* `std::string::substr` can throw `std::out_of_range`; it is modelled as
  returning `Except Unit (List Char)`, and the exception propagation
  through the `matches` loop is modelled by the `Except` monad (an
  exception aborts the loop and discards the partial result, exactly as a
  C++ exception unwinds out of `matches`).
* The C++ loops are modelled by structural recursion on an explicit bound
  (`fuel`) which is provably at least the number of iterations the C++
  loop performs, so the embedded functions compute by kernel reduction;
  the characterisation lemmas below pin their behaviour down under the
  fuel bound that the public wrappers always supply.
-/

namespace minigrep

/-- Source: `border_size = 3`, the number of context characters shown for
the prefix and suffix of a match. -/
def border_size : Int := 3

/-- Source: `chunk_size = 1000000`, the maximum number of characters a
single task searches. -/
def chunk_size : Int := 1000000

/-- Source: `struct Range`, a half-open interval.  The C++ fields are
named `begin`/`end`; `end` is a Lean keyword, so they are `rbegin`/`rend`
here. -/
structure Range where
  rbegin : Int
  rend : Int
deriving DecidableEq

/-- Source: `Range::clamp(min, max)`. -/
def Range.clamp (r : Range) (min max : Int) : Range :=
  ⟨Max.max r.rbegin min, Min.min r.rend max⟩

/-- Source: `Range::extend(amount)`. -/
def Range.extend (r : Range) (amount : Int) : Range :=
  ⟨r.rbegin - amount, r.rend + amount⟩

/-- Source: `Range::size()`. -/
def Range.size (r : Range) : Int := r.rend - r.rbegin

/-- Source: `Range::split()`: `none` when `size() <= chunk_size`, else the
two halves cut at `begin + chunk_size`. -/
def Range.split (r : Range) : Option (Range × Range) :=
  if r.size ≤ chunk_size then none
  else
    let mid := r.rbegin + chunk_size
    some (⟨r.rbegin, mid⟩, ⟨mid, r.rend⟩)

/-- Source: `struct File`, a path plus the byte length determined at
construction time.  The construction-time `ifstream`/`tellg` call is a
file-system effect outside the embedding; theorems connect `size` to the
length of the modelled on-disk contents where that matters. -/
structure File where
  path : String
  size : Int
deriving DecidableEq

/-- Source: `struct FileChunk` (fields `file`, `search`, `read`,
`contents`). -/
structure FileChunk where
  file : File
  search : Range
  read : Range
  contents : List Char
deriving DecidableEq

/-- Source: the `FileChunk(file, search)` constructor:
`read = search.extend(border_size).clamp(0, file.size)`; `contents` stays
empty until `fetch_contents` runs. -/
def FileChunk.ofSearch (file : File) (search : Range) : FileChunk :=
  ⟨file, search, (search.extend border_size).clamp 0 file.size, []⟩

/-- The C++ `int -> std::size_t` conversion: reduction modulo `2^64`
(a negative `int` becomes an astronomically large `size_t`). -/
def toSizeT (x : Int) : Nat := (x % (2 : Int) ^ 64).toNat

/-- Source: `FileChunk::fetch_contents()` — seek to `read.begin` and read
`read.size()` bytes (the `std::vector` buffer size goes through the
`int -> size_t` conversion).  `data` is the byte content of the file on
disk; for every chunk the claims quantify over, `0 ≤ read.begin` and
`read.end ≤ data.length`, where this is exactly the bytes
`[read.begin, read.end)` that the C++ `seekg`/`read` pair yields. -/
def fetch_contents (data : List Char) (c : FileChunk) : FileChunk :=
  { c with contents := (data.drop c.read.rbegin.toNat).take (toSizeT c.read.size) }

/-- Source: `struct Match`.  The C++ fields `prefix`/`suffix` are named
`pre`/`suf` here (`prefix` is a Lean keyword). -/
structure Match where
  path : String
  position : Int
  pre : List Char
  suf : List Char
deriving DecidableEq

/-- Source: `std::string::substr(pos, count)` — throws `std::out_of_range`
when `pos > size()`, otherwise yields the characters
`[pos, pos + min(count, size() - pos))`.  Both arguments go through the
`int -> size_t` conversion at the call sites in the source. -/
def substr (s : List Char) (pos count : Int) : Except Unit (List Char) :=
  if s.length < toSizeT pos then .error ()
  else .ok ((s.drop (toSizeT pos)).take (toSizeT count))

/-- Source: the `prefix(contents, index)` helper (`prefix` is a Lean
keyword, hence `preOf`):
`offset = max(index - border_size, 0); count = index - offset;
return contents.substr(offset, count)`. -/
def preOf (contents : List Char) (index : Int) : Except Unit (List Char) :=
  let offset := Max.max (index - border_size) 0
  let count := index - offset
  substr contents offset count

/-- Source: the `suffix(contents, index)` helper:
`contents.substr(index, border_size)`. -/
def sufOf (contents : List Char) (index : Int) : Except Unit (List Char) :=
  substr contents index border_size

/-- Source: `transform(string)` — copy the characters left to right,
replacing a newline by `\` `n` and a tab by `\` `t` (the C++ `switch` on
the character is this chain of equality tests). -/
def transform (string : List Char) : List Char :=
  string.foldl
    (fun result c =>
      if c = '\n' then result ++ ['\\', 'n']
      else if c = '\t' then result ++ ['\\', 't']
      else result ++ [c])
    []

/-- Source: the lambda `to_index` inside `matches`:
`to_index(pos) = pos - chunk.read.begin`. -/
def to_index (c : FileChunk) (pos : Int) : Int := pos - c.read.rbegin

/-- Model of `std::string::find(pat, start)`: the smallest `p ≥ start` such that
the whole of `pat` occurs in `s` at `p` (`s.compare(p, pat.size(), pat)`
is an equality of the `pat.length` characters from `p`, which requires
`p + pat.length ≤ s.length`); `npos` — here `none` — when no such `p`
exists.  `fuel` is a structural bound on the number of probed positions;
`findFrom` supplies `s.length + 1 - start`, which always suffices: when
the fuel reaches `0` under that bound, `start > s.length` already holds
and the scan is over in any case. -/
def findFromF (s pat : List Char) : Nat → Nat → Option Nat
  | 0, _ => none
  | fuel + 1, start =>
    if s.length < start + pat.length then none
    else if (s.drop start).take pat.length = pat then some start
    else findFromF s pat fuel (start + 1)

/-- Source: `chunk.contents.find(string, start)` with `start : size_t`. -/
def findFrom (s pat : List Char) (start : Nat) : Option Nat :=
  findFromF s pat (s.length + 1 - start) start

/-- Source: the `for` loop of `matches`, starting from a `find` at
`start`:
`for (pos = contents.find(string, start); pos != npos && pos <
to_index(search.end); pos = contents.find(string, pos + 1))` with body
`result.push_back(Match{path, (int)pos, transform(prefix(contents,
to_index(pos))), transform(suffix(contents, to_index(pos +
string.size())))})`.  The comparison `pos < to_index(search.end)` is a
`size_t` comparison, so the `int` right-hand side goes through `toSizeT`;
`to_index(pos)` converts the `size_t` scan position back to `int` (the
identity for the sizes at hand).  An `std::out_of_range` from
`prefix`/`suffix` aborts the whole call, discarding matches already
pushed — modelled by the `Except` propagation.  `fuel` again bounds the
iteration count; `matches` supplies `contents.length + 1`, which always
suffices because the scan position strictly increases and never exceeds
`contents.length`. -/
def matchesFromF (c : FileChunk) (string : List Char) : Nat → Nat → Except Unit (List Match)
  | 0, _ => .ok []
  | fuel + 1, start =>
    match findFrom c.contents string start with
    | none => .ok []
    | some pos =>
      if pos < toSizeT (to_index c c.search.rend) then
        match preOf c.contents (to_index c (pos : Int)),
              sufOf c.contents (to_index c ((pos : Int) + string.length)) with
        | .ok pre, .ok suf =>
          match matchesFromF c string fuel (pos + 1) with
          | .ok rest =>
            .ok (⟨c.file.path, (pos : Int), transform pre, transform suf⟩ :: rest)
          | .error e => .error e
        | .error e, _ => .error e
        | _, .error e => .error e
      else .ok []

/-- Source: `matches(chunk, string)`.  The initial `find` starts from
`to_index(chunk.search.begin)` converted to `size_t`. -/
def matchesOf (c : FileChunk) (string : List Char) : Except Unit (List Match) :=
  matchesFromF c string (c.contents.length + 1) (toSizeT (to_index c c.search.rbegin))

/-- Source: the `while` loop of `chunks`: keep splitting the last chunk's
search range, replacing it by the left half and appending the right half.
The loop state is exactly the suffix built from the still-splittable last
range, so it unrolls to this recursion.  `fuel` bounds the number of
splits; `chunks` supplies `file.size.toNat + 1`, which suffices because
every split strictly shrinks the remaining range by `chunk_size ≥ 1`.
When the fuel runs out the remaining range has size `≤ 0 ≤ chunk_size`,
where the loop would stop as well, so the `0`-fuel branch agrees with the
loop. -/
def chunksFromF (file : File) : Nat → Range → List FileChunk
  | 0, r => [FileChunk.ofSearch file r]
  | fuel + 1, r =>
    match r.split with
    | none => [FileChunk.ofSearch file r]
    | some lr => FileChunk.ofSearch file lr.1 :: chunksFromF file fuel lr.2

/-- Source: `chunks(file)` — start from the single range `{0, file.size}`
and split repeatedly. -/
def chunks (file : File) : List FileChunk :=
  chunksFromF file (file.size.toNat + 1) ⟨0, file.size⟩

/-- The search ranges of the chunks of a file, in order. -/
def searchRanges (file : File) : List Range :=
  (chunks file).map FileChunk.search

/-- The pattern `pat` occurs in `s` at position `i`, with the full pattern
inside `s`. -/
def occursAt (s pat : List Char) (i : Nat) : Prop :=
  i + pat.length ≤ s.length ∧ (s.drop i).take pat.length = pat

instance (s pat : List Char) (i : Nat) : Decidable (occursAt s pat i) := by
  unfold occursAt
  infer_instance

/-- What `std::filesystem` reports for a path: a regular file, a
directory, or anything else (including a nonexistent path). -/
inductive PathKind
  | regularFile
  | directory
  | other
deriving DecidableEq

/-- The file-system facts `main` consults, abstracted: the kind of each
path, the regular files (path and size) found by the recursive directory
walk, and the size `File`'s constructor reads for a path. -/
structure FileSystem where
  kind : String → PathKind
  entries : String → List (String × Int)
  sizeOf : String → Int

/-- Source: `files(path)` — a single file if the path is a regular file,
`nullopt` if it is not a directory either, otherwise the regular files of
the recursive directory walk. -/
def files (fs : FileSystem) (path : String) : Option (List File) :=
  if fs.kind path = PathKind.regularFile then some [⟨path, fs.sizeOf path⟩]
  else if fs.kind path = PathKind.directory then
    some ((fs.entries path).map fun e => ⟨e.1, e.2⟩)
  else none

/-- The observable outcome of `main`: the process exit status, whether the
usage message respectively the invalid-path diagnostic was printed, and
how many chunks were built and dispatched. -/
structure MainResult where
  exit : Int
  usage : Bool
  invalidPath : Bool
  processed : Nat
deriving DecidableEq

/-- Source: `main(argc, argv)` with `argv` as the full argument list
(program name included).  Wrong argument count: usage message and
`EXIT_FAILURE` (1).  `files` fails: diagnostic and `EXIT_FAILURE`.
Otherwise all chunks of all files are built and dispatched, the futures
are joined by their destructors, and `main` falls off its end, returning
`0` (`EXIT_SUCCESS`) regardless of how many matches were printed. -/
def main (fs : FileSystem) (argv : List String) : MainResult :=
  if argv.length ≠ 3 then ⟨1, true, false, 0⟩
  else
    match files fs (argv.getD 1 "") with
    | none => ⟨1, false, true, 0⟩
    | some fl => ⟨0, false, false, (fl.map fun f => (chunks f).length).sum⟩

/-- The on-disk contents used by the boundary-bug demonstration: one
million `x` bytes, then `yzw`, then 17 more `x` bytes (1000020 bytes, so
the file splits into two chunks and `yzw` starts exactly at the split
offset 1000000). -/
def demoData : List Char :=
  List.replicate 1000000 'x' ++ ('y' :: 'z' :: 'w' :: List.replicate 17 'x')

end minigrep

namespace minigrep

/-- The `int -> size_t` conversion is the identity on the in-range values. -/
theorem toSizeT_eq_toNat (x : Int) (h0 : 0 ≤ x) (h1 : x < 2 ^ 64) :
    toSizeT x = x.toNat := by
  unfold toSizeT
  rw [Int.emod_eq_of_lt h0 h1]

/-- The `int -> size_t` conversion, cast back to `Int`, on in-range values. -/
theorem toSizeT_cast (x : Int) (h0 : 0 ≤ x) (h1 : x < 2 ^ 64) :
    (toSizeT x : Int) = x := by
  rw [toSizeT_eq_toNat x h0 h1]
  exact Int.toNat_of_nonneg h0

/-- The `transform` fold with an arbitrary accumulator. -/
theorem transform_go (s : List Char) (acc : List Char) :
    List.foldl
      (fun result c =>
        if c = '\n' then result ++ ['\\', 'n']
        else if c = '\t' then result ++ ['\\', 't']
        else result ++ [c]) acc s
    = acc ++ s.flatMap
        (fun c => if c = '\n' then ['\\', 'n'] else if c = '\t' then ['\\', 't'] else [c]) := by
  induction s generalizing acc with
  | nil => simp
  | cons c s ih =>
    rw [List.foldl_cons, ih, List.flatMap_cons]
    by_cases h1 : c = '\n'
    · simp [h1]
    · by_cases h2 : c = '\t'
      · simp [h1, h2]
      · simp [h1, h2]

/-- C6: for every input string, the escaping transform replaces each
newline byte with the two-character sequence backslash-`n`, each tab byte
with backslash-`t`, and maps every other byte to itself unchanged,
preserving the left-to-right order of the input. -/
theorem c6_transform_escapes (s : List Char) :
    transform s
    = s.flatMap
        (fun c => if c = '\n' then ['\\', 'n'] else if c = '\t' then ['\\', 't'] else [c]) := by
  unfold transform
  simpa using transform_go s []

/-- C4: `split` returns `none` exactly on ranges of size at most
`chunk_size`; on larger ranges it cuts at `begin + chunk_size` into a left
half of size exactly `chunk_size` and an adjacent right half ending at the
original end, whose sizes sum to the original size and whose union is the
original half-open interval. -/
theorem c4_split_spec (r : Range) :
    (r.size ≤ chunk_size → r.split = none) ∧
    (chunk_size < r.size →
      ∃ l rt, r.split = some (l, rt) ∧
        l = ⟨r.rbegin, r.rbegin + chunk_size⟩ ∧ l.size = chunk_size ∧
        rt.rbegin = l.rend ∧ rt.rend = r.rend ∧ l.size + rt.size = r.size ∧
        ∀ x : Int, ((l.rbegin ≤ x ∧ x < l.rend) ∨ (rt.rbegin ≤ x ∧ x < rt.rend))
          ↔ (r.rbegin ≤ x ∧ x < r.rend)) := by
  have hK : chunk_size = 1000000 := rfl
  constructor
  · intro h
    simp [Range.split, h]
  · intro h
    refine ⟨⟨r.rbegin, r.rbegin + chunk_size⟩, ⟨r.rbegin + chunk_size, r.rend⟩,
      ?_, rfl, ?_, rfl, rfl, ?_, ?_⟩
    · simp [Range.split, not_le.mpr h]
    · simp [Range.size]
    · simp only [Range.size]
      ring
    · intro x
      simp only [Range.size] at h
      dsimp only
      omega

/-- Witness for C4 at the concrete range `{0, 1000100}`. -/
theorem c4_split_spec_witness :
    chunk_size < Range.size ⟨0, 1000100⟩ ∧
      (∃ l rt, Range.split ⟨0, 1000100⟩ = some (l, rt) ∧
        l = ⟨(Range.rbegin ⟨0, 1000100⟩), (Range.rbegin ⟨0, 1000100⟩) + chunk_size⟩ ∧
        l.size = chunk_size ∧
        rt.rbegin = l.rend ∧ rt.rend = Range.rend ⟨0, 1000100⟩ ∧
        l.size + rt.size = Range.size ⟨0, 1000100⟩ ∧
        ∀ x : Int, ((l.rbegin ≤ x ∧ x < l.rend) ∨ (rt.rbegin ≤ x ∧ x < rt.rend))
          ↔ ((Range.rbegin ⟨0, 1000100⟩) ≤ x ∧ x < Range.rend ⟨0, 1000100⟩)) :=
  ⟨by decide, (c4_split_spec ⟨0, 1000100⟩).2 (by decide)⟩

/-- C7: clamping a range to `[lo, hi)` yields a range contained in
`[lo, hi)` and a sub-interval of the original range. -/
theorem c7_clamp_spec (r : Range) (lo hi : Int) (h : lo ≤ hi) :
    lo ≤ (r.clamp lo hi).rbegin ∧ (r.clamp lo hi).rend ≤ hi ∧
      r.rbegin ≤ (r.clamp lo hi).rbegin ∧ (r.clamp lo hi).rend ≤ r.rend := by
  simp only [Range.clamp]
  exact ⟨le_max_right _ _, min_le_right _ _, le_max_left _ _, min_le_left _ _⟩

/-- Witness for C7 at the concrete range `{1, 3}` clamped to `[0, 2)`. -/
theorem c7_clamp_spec_witness :
    (0 : Int) ≤ 2 ∧
      ((0 : Int) ≤ (Range.clamp ⟨1, 3⟩ 0 2).rbegin ∧ (Range.clamp ⟨1, 3⟩ 0 2).rend ≤ 2 ∧
        (Range.rbegin ⟨1, 3⟩ : Int) ≤ (Range.clamp ⟨1, 3⟩ 0 2).rbegin ∧
        (Range.clamp ⟨1, 3⟩ 0 2).rend ≤ Range.rend ⟨1, 3⟩) :=
  ⟨by decide, c7_clamp_spec ⟨1, 3⟩ 0 2 (by decide)⟩


/-- Projection of the `FileChunk` constructor: the search range. -/
theorem ofSearch_search (file : File) (s : Range) :
    (FileChunk.ofSearch file s).search = s := rfl

/-- Projection of the `FileChunk` constructor: the read range. -/
theorem ofSearch_read (file : File) (s : Range) :
    (FileChunk.ofSearch file s).read = (s.extend border_size).clamp 0 file.size := rfl

/-- The partition facts for a one-range list, shared by the two
non-splitting branches of `chunksFromF`. -/
theorem singleton_searches_prop (r : Range) (hle : r.rbegin ≤ r.rend)
    (hsz : r.size ≤ chunk_size) :
    ([r] : List Range) ≠ [] ∧
    ([r] : List Range).head?.map Range.rbegin = some r.rbegin ∧
    ([r] : List Range).getLast?.map Range.rend = some r.rend ∧
    List.Chain' (fun a b => a.rend = b.rbegin) [r] ∧
    (∀ q ∈ [r], r.rbegin ≤ q.rbegin ∧ q.rbegin ≤ q.rend ∧ q.rend ≤ r.rend ∧
      q.size ≤ chunk_size) ∧
    List.Pairwise (fun a b => a.rend ≤ b.rbegin) [r] ∧
    (∀ x : Int, (r.rbegin ≤ x ∧ x < r.rend) ↔ ∃ q ∈ [r], q.rbegin ≤ x ∧ x < q.rend) := by
  refine ⟨by simp, by simp, by simp, by simp, ?_, by simp, ?_⟩
  · intro q hq
    simp only [List.mem_singleton] at hq
    subst hq
    exact ⟨le_refl _, hle, le_refl _, hsz⟩
  · intro x
    simp

/-- The search ranges produced by the splitting loop partition the input
range: non-empty, starting at `r.begin`, ending at `r.end`, contiguous,
with every piece inside the input range and of size between `0` and
`chunk_size`, pairwise disjoint in order, and covering the input interval
exactly.  `fuel` must be at least the size of the range, which is what
`chunks` supplies. -/
theorem chunksFromF_searches (file : File) :
    ∀ (fuel : Nat) (r : Range), r.rbegin ≤ r.rend → (r.rend - r.rbegin).toNat ≤ fuel →
      ((chunksFromF file fuel r).map FileChunk.search ≠ [] ∧
       ((chunksFromF file fuel r).map FileChunk.search).head?.map Range.rbegin
         = some r.rbegin ∧
       ((chunksFromF file fuel r).map FileChunk.search).getLast?.map Range.rend
         = some r.rend ∧
       List.Chain' (fun a b => a.rend = b.rbegin)
         ((chunksFromF file fuel r).map FileChunk.search) ∧
       (∀ q ∈ (chunksFromF file fuel r).map FileChunk.search,
         r.rbegin ≤ q.rbegin ∧ q.rbegin ≤ q.rend ∧ q.rend ≤ r.rend ∧
           q.size ≤ chunk_size) ∧
       List.Pairwise (fun a b => a.rend ≤ b.rbegin)
         ((chunksFromF file fuel r).map FileChunk.search) ∧
       (∀ x : Int, (r.rbegin ≤ x ∧ x < r.rend)
         ↔ ∃ q ∈ (chunksFromF file fuel r).map FileChunk.search,
             q.rbegin ≤ x ∧ x < q.rend)) := by
  have hK : chunk_size = 1000000 := rfl
  intro fuel
  induction fuel with
  | zero =>
    intro r hle hsz
    have hrw : (chunksFromF file 0 r).map FileChunk.search = [r] := by
      simp [chunksFromF, ofSearch_search]
    rw [hrw]
    exact singleton_searches_prop r hle (by simp only [Range.size]; omega)
  | succ fuel ih =>
    intro r hle hsz
    by_cases hsp : r.size ≤ chunk_size
    · have hrw : (chunksFromF file (fuel + 1) r).map FileChunk.search = [r] := by
        simp [chunksFromF, Range.split, hsp, ofSearch_search]
      rw [hrw]
      exact singleton_searches_prop r hle hsp
    · push_neg at hsp
      have hsize : chunk_size < r.rend - r.rbegin := by
        simpa [Range.size] using hsp
      have hrw : (chunksFromF file (fuel + 1) r).map FileChunk.search
          = ⟨r.rbegin, r.rbegin + chunk_size⟩ ::
            (chunksFromF file fuel ⟨r.rbegin + chunk_size, r.rend⟩).map FileChunk.search := by
        simp [chunksFromF, Range.split, not_le.mpr hsp, ofSearch_search]
      obtain ⟨hne, hhead, hlast, hchain, hbounds, hpair, hcover⟩ :=
        ih ⟨r.rbegin + chunk_size, r.rend⟩ (by dsimp only; omega) (by dsimp only; omega)
      rw [hrw]
      obtain ⟨q0, rest0, hrest⟩ : ∃ q0 rest0,
          (chunksFromF file fuel ⟨r.rbegin + chunk_size, r.rend⟩).map FileChunk.search
            = q0 :: rest0 := by
        rcases hh : (chunksFromF file fuel ⟨r.rbegin + chunk_size, r.rend⟩).map
            FileChunk.search with - | ⟨a, l⟩
        · exact absurd hh hne
        · exact ⟨a, l, rfl⟩
      have hq0 : q0.rbegin = r.rbegin + chunk_size := by
        rw [hrest] at hhead
        simpa using hhead
      refine ⟨by simp, ?_, ?_, ?_, ?_, ?_, ?_⟩
      · simp
      · rw [hrest] at hlast ⊢
        simpa using hlast
      · rw [hrest] at hchain ⊢
        exact List.Chain'.cons (by dsimp only; omega) hchain
      · intro q hq
        rcases List.mem_cons.mp hq with hq | hq
        · subst hq
          dsimp only
          simp only [Range.size]
          omega
        · obtain ⟨h1, h2, h3, h4⟩ := hbounds q hq
          dsimp only at h1 h3
          exact ⟨by omega, h2, by omega, h4⟩
      · refine List.pairwise_cons.mpr ⟨?_, hpair⟩
        intro q hq
        have := (hbounds q hq).1
        dsimp only at this ⊢
        omega
      · intro x
        constructor
        · intro hx
          by_cases hxl : x < r.rbegin + chunk_size
          · exact ⟨⟨r.rbegin, r.rbegin + chunk_size⟩, by simp, by dsimp only; omega⟩
          · obtain ⟨q, hqmem, hqx⟩ := (hcover x).mp (by dsimp only; omega)
            exact ⟨q, List.mem_cons_of_mem _ hqmem, hqx⟩
        · intro ⟨q, hqmem, hqx⟩
          rcases List.mem_cons.mp hqmem with hq | hq
          · subst hq
            dsimp only at hqx
            omega
          · have := (hbounds q hq).1
            have h2 := (hbounds q hq).2.2.1
            dsimp only at this h2
            omega

/-- Every chunk the splitting loop produces is built by the `FileChunk`
constructor from its own search range. -/
theorem chunksFromF_ofSearch (file : File) :
    ∀ (fuel : Nat) (r : Range) (c : FileChunk), c ∈ chunksFromF file fuel r →
      c = FileChunk.ofSearch file c.search := by
  intro fuel
  induction fuel with
  | zero =>
    intro r c hc
    simp only [chunksFromF, List.mem_singleton] at hc
    subst hc
    rfl
  | succ fuel ih =>
    intro r c hc
    simp only [chunksFromF] at hc
    rcases hsp : r.split with - | lr
    · rw [hsp] at hc
      simp only [List.mem_singleton] at hc
      subst hc
      rfl
    · rw [hsp] at hc
      rcases List.mem_cons.mp hc with hc | hc
      · subst hc
        rfl
      · exact ih lr.2 c hc

/-- C2: for every file of size `S ≥ 0` the chunking algorithm produces a
non-empty ordered sequence of chunks whose search intervals begin at `0`,
end at `S`, are contiguous (each begins where the previous one ends),
pairwise disjoint in order, of size at most `chunk_size` (and at least
`0`), and cover `[0, S)` exactly. -/
theorem c2_chunks_partition (file : File) (h : 0 ≤ file.size) :
    searchRanges file ≠ [] ∧
    (searchRanges file).head?.map Range.rbegin = some 0 ∧
    (searchRanges file).getLast?.map Range.rend = some file.size ∧
    List.Chain' (fun a b => a.rend = b.rbegin) (searchRanges file) ∧
    (∀ q ∈ searchRanges file, 0 ≤ q.size ∧ q.size ≤ chunk_size) ∧
    List.Pairwise (fun a b => a.rend ≤ b.rbegin) (searchRanges file) ∧
    (∀ x : Int, (0 ≤ x ∧ x < file.size)
      ↔ ∃ q ∈ searchRanges file, q.rbegin ≤ x ∧ x < q.rend) := by
  obtain ⟨h1, h2, h3, h4, h5, h6, h7⟩ :=
    chunksFromF_searches file (file.size.toNat + 1) ⟨0, file.size⟩
      (by dsimp only; omega) (by dsimp only; omega)
  refine ⟨h1, h2, h3, h4, ?_, h6, ?_⟩
  · intro q hq
    obtain ⟨hb1, hb2, hb3, hb4⟩ := h5 q hq
    simp only [Range.size]
    dsimp only at hb1 hb3
    exact ⟨by omega, hb4⟩
  · intro x
    have h77 := h7 x
    dsimp only at h77
    exact h77

/-- Witness for C2 at a five-byte file. -/
theorem c2_chunks_partition_witness :
    (0 : Int) ≤ File.size ⟨"f", 5⟩ ∧
      (searchRanges ⟨"f", 5⟩ ≠ [] ∧
       (searchRanges ⟨"f", 5⟩).head?.map Range.rbegin = some 0 ∧
       (searchRanges ⟨"f", 5⟩).getLast?.map Range.rend = some (File.size ⟨"f", 5⟩) ∧
       List.Chain' (fun a b => a.rend = b.rbegin) (searchRanges ⟨"f", 5⟩) ∧
       (∀ q ∈ searchRanges ⟨"f", 5⟩, 0 ≤ q.size ∧ q.size ≤ chunk_size) ∧
       List.Pairwise (fun a b => a.rend ≤ b.rbegin) (searchRanges ⟨"f", 5⟩) ∧
       (∀ x : Int, (0 ≤ x ∧ x < File.size ⟨"f", 5⟩)
         ↔ ∃ q ∈ searchRanges ⟨"f", 5⟩, q.rbegin ≤ x ∧ x < q.rend)) :=
  ⟨by decide, c2_chunks_partition ⟨"f", 5⟩ (by decide)⟩

/-- C10: for a file of size `S ≥ 0`, every produced chunk satisfies
`0 ≤ read.begin ≤ search.begin` and `search.end ≤ read.end ≤ S`: the
search interval sits inside the read interval, which sits inside the
file. -/
theorem c10_read_invariant (file : File) (h : 0 ≤ file.size) :
    ∀ c ∈ chunks file, 0 ≤ c.read.rbegin ∧ c.read.rbegin ≤ c.search.rbegin ∧
      c.search.rend ≤ c.read.rend ∧ c.read.rend ≤ file.size := by
  intro c hc
  have hof := chunksFromF_ofSearch file (file.size.toNat + 1) ⟨0, file.size⟩ c hc
  obtain ⟨-, -, -, -, hbounds, -, -⟩ :=
    chunksFromF_searches file (file.size.toNat + 1) ⟨0, file.size⟩
      (by dsimp only; omega) (by dsimp only; omega)
  obtain ⟨hb1, hb2, hb3, hb4⟩ :=
    hbounds c.search (List.mem_map_of_mem FileChunk.search hc)
  dsimp only at hb1 hb3
  have hread : c.read = (c.search.extend border_size).clamp 0 file.size := by
    conv_lhs => rw [hof]
    exact ofSearch_read file c.search
  rw [hread]
  simp only [Range.extend, Range.clamp]
  have hB : border_size = 3 := rfl
  refine ⟨le_max_right _ _, max_le (by omega) (by omega), le_min (by omega) (by omega),
    min_le_right _ _⟩

/-- Witness for C10 at a five-byte file and its single chunk. -/
theorem c10_read_invariant_witness :
    (0 : Int) ≤ File.size ⟨"f", 5⟩ ∧
      FileChunk.ofSearch ⟨"f", 5⟩ ⟨0, 5⟩ ∈ chunks ⟨"f", 5⟩ ∧
      (0 ≤ (FileChunk.ofSearch ⟨"f", 5⟩ ⟨0, 5⟩).read.rbegin ∧
        (FileChunk.ofSearch ⟨"f", 5⟩ ⟨0, 5⟩).read.rbegin
          ≤ (FileChunk.ofSearch ⟨"f", 5⟩ ⟨0, 5⟩).search.rbegin ∧
        (FileChunk.ofSearch ⟨"f", 5⟩ ⟨0, 5⟩).search.rend
          ≤ (FileChunk.ofSearch ⟨"f", 5⟩ ⟨0, 5⟩).read.rend ∧
        (FileChunk.ofSearch ⟨"f", 5⟩ ⟨0, 5⟩).read.rend ≤ File.size ⟨"f", 5⟩) :=
  ⟨by decide, by decide,
    c10_read_invariant ⟨"f", 5⟩ (by decide) (FileChunk.ofSearch ⟨"f", 5⟩ ⟨0, 5⟩) (by decide)⟩


/-- When `findFromF` answers `some p` (under the fuel bound the wrapper
supplies), `p` is the least occurrence of `pat` at or after `start`. -/
theorem findFromF_some (s pat : List Char) :
    ∀ (fuel start p : Nat), s.length + 1 - start ≤ fuel →
      findFromF s pat fuel start = some p →
      start ≤ p ∧ occursAt s pat p ∧ ∀ q, start ≤ q → q < p → ¬ occursAt s pat q := by
  intro fuel
  induction fuel with
  | zero =>
    intro start p hf h
    simp [findFromF] at h
  | succ fuel ih =>
    intro start p hf h
    simp only [findFromF] at h
    by_cases h1 : s.length < start + pat.length
    · rw [if_pos h1] at h
      exact absurd h (by simp)
    · rw [if_neg h1] at h
      by_cases h2 : (s.drop start).take pat.length = pat
      · rw [if_pos h2] at h
        have hp : start = p := Option.some.inj h
        subst hp
        exact ⟨le_refl _, ⟨by omega, h2⟩, fun q hq1 hq2 => by omega⟩
      · rw [if_neg h2] at h
        obtain ⟨ha, hb, hc⟩ := ih (start + 1) p (by omega) h
        refine ⟨by omega, hb, ?_⟩
        intro q hq1 hq2
        rcases Nat.eq_or_lt_of_le hq1 with hq | hq
        · subst hq
          intro hocc
          exact h2 hocc.2
        · exact hc q hq hq2

/-- When `findFromF` answers `none` (under the fuel bound), there is no
occurrence of `pat` at or after `start`. -/
theorem findFromF_none (s pat : List Char) :
    ∀ (fuel start : Nat), s.length + 1 - start ≤ fuel →
      findFromF s pat fuel start = none →
      ∀ q, start ≤ q → ¬ occursAt s pat q := by
  intro fuel
  induction fuel with
  | zero =>
    intro start hf h q hq hocc
    have := hocc.1
    omega
  | succ fuel ih =>
    intro start hf h
    simp only [findFromF] at h
    by_cases h1 : s.length < start + pat.length
    · intro q hq hocc
      have := hocc.1
      omega
    · rw [if_neg h1] at h
      by_cases h2 : (s.drop start).take pat.length = pat
      · rw [if_pos h2] at h
        exact absurd h (by simp)
      · rw [if_neg h2] at h
        intro q hq hocc
        rcases Nat.eq_or_lt_of_le hq with hq' | hq'
        · subst hq'
          exact h2 hocc.2
        · exact ih (start + 1) (by omega) h q hq' hocc

/-- Conversely, the least occurrence at or after `start` is what
`findFromF` answers (under the fuel bound). -/
theorem findFromF_eq_some (s pat : List Char) :
    ∀ (fuel start p : Nat), s.length + 1 - start ≤ fuel →
      start ≤ p → occursAt s pat p → (∀ q, start ≤ q → q < p → ¬ occursAt s pat q) →
      findFromF s pat fuel start = some p := by
  intro fuel
  induction fuel with
  | zero =>
    intro start p hf hsp hocc hmin
    have := hocc.1
    omega
  | succ fuel ih =>
    intro start p hf hsp hocc hmin
    have hplen := hocc.1
    simp only [findFromF]
    by_cases h1 : s.length < start + pat.length
    · exact absurd h1 (by omega)
    · rw [if_neg h1]
      by_cases h2 : (s.drop start).take pat.length = pat
      · rw [if_pos h2]
        have hps : p = start := by
          by_contra hne
          exact hmin start (le_refl _) (by omega) ⟨by omega, h2⟩
        rw [hps]
      · rw [if_neg h2]
        have hps : start < p := by
          rcases Nat.eq_or_lt_of_le hsp with hq | hq
          · exfalso
            apply h2
            rw [hq]
            exact hocc.2
          · exact hq
        exact ih (start + 1) p (by omega) (by omega) hocc
          (fun q hq1 hq2 => hmin q (by omega) hq2)

/-- Wrapper of `findFromF_some` at the fuel `findFrom` supplies. -/
theorem findFrom_some (s pat : List Char) (start p : Nat)
    (h : findFrom s pat start = some p) :
    start ≤ p ∧ occursAt s pat p ∧ ∀ q, start ≤ q → q < p → ¬ occursAt s pat q :=
  findFromF_some s pat (s.length + 1 - start) start p (le_refl _) h

/-- Wrapper of `findFromF_none` at the fuel `findFrom` supplies. -/
theorem findFrom_none (s pat : List Char) (start : Nat)
    (h : findFrom s pat start = none) :
    ∀ q, start ≤ q → ¬ occursAt s pat q :=
  findFromF_none s pat (s.length + 1 - start) start (le_refl _) h

/-- Wrapper of `findFromF_eq_some` at the fuel `findFrom` supplies. -/
theorem findFrom_eq_some (s pat : List Char) (start p : Nat)
    (hsp : start ≤ p) (hocc : occursAt s pat p)
    (hmin : ∀ q, start ≤ q → q < p → ¬ occursAt s pat q) :
    findFrom s pat start = some p :=
  findFromF_eq_some s pat (s.length + 1 - start) start p (le_refl _) hsp hocc hmin


/-- Completeness of the `matches` loop: when it completes with `.ok ms`
(under the fuel bound the wrapper supplies), every occurrence of `pat`
whose scan position lies in `[start, to_index(search.end))` contributes a
`Match` whose recorded `position` is that (content-local) scan position. -/
theorem matchesFromF_ok_mem (c : FileChunk) (pat : List Char) :
    ∀ (fuel start : Nat) (ms : List Match), c.contents.length + 1 - start ≤ fuel →
      matchesFromF c pat fuel start = .ok ms →
      ∀ p : Nat, occursAt c.contents pat p → start ≤ p →
        p < toSizeT (to_index c c.search.rend) →
        (p : Int) ∈ ms.map Match.position := by
  intro fuel
  induction fuel with
  | zero =>
    intro start ms hf h p hocc hsp hstop
    have := hocc.1
    omega
  | succ fuel ih =>
    intro start ms hf h p hocc hsp hstop
    simp only [matchesFromF] at h
    split at h
    · rename_i hfind
      exact absurd hocc (findFrom_none c.contents pat start hfind p hsp)
    · rename_i pos hfind
      obtain ⟨hsppos, hoccpos, hminpos⟩ := findFrom_some c.contents pat start pos hfind
      by_cases hlt : pos < toSizeT (to_index c c.search.rend)
      · rw [if_pos hlt] at h
        rcases hpre : preOf c.contents (to_index c (pos : Int)) with e | pre
        · rw [hpre] at h
          simp at h
        · rw [hpre] at h
          rcases hsuf : sufOf c.contents (to_index c ((pos : Int) + pat.length)) with e | suf
          · rw [hsuf] at h
            simp at h
          · rw [hsuf] at h
            rcases hrest : matchesFromF c pat fuel (pos + 1) with e | rest
            · rw [hrest] at h
              simp at h
            · rw [hrest] at h
              replace h :
                  (⟨c.file.path, (pos : Int), transform pre, transform suf⟩ : Match)
                    :: rest = ms := by
                simpa using h
              subst h
              have hpos_le : pos ≤ p := by
                by_contra hpp
                exact hminpos p hsp (by omega) hocc
              rcases Nat.eq_or_lt_of_le hpos_le with hpp | hpp
              · rw [← hpp]
                simp
              · have hplen := hoccpos.1
                have hmem := ih (pos + 1) rest (by omega) hrest p hocc (by omega) hstop
                simp only [List.map_cons, List.mem_cons]
                exact Or.inr hmem
      · rw [if_neg hlt] at h
        have hpos_le : pos ≤ p := by
          by_contra hpp
          exact hminpos p hsp (by omega) hocc
        omega

/-- Shape of the `matches` loop's output: every reported `Match` carries
the file path, an `Int` cast of the scan position at which it was found,
and the transforms of the strings the `prefix`/`suffix` helpers returned
(without throwing) at the `to_index`-converted positions. -/
theorem matchesFromF_ok_shape (c : FileChunk) (pat : List Char) :
    ∀ (fuel start : Nat) (ms : List Match),
      matchesFromF c pat fuel start = .ok ms →
      ∀ m ∈ ms, ∃ (pos : Nat) (pre suf : List Char),
        m = ⟨c.file.path, (pos : Int), transform pre, transform suf⟩ ∧
        preOf c.contents (to_index c (pos : Int)) = .ok pre ∧
        sufOf c.contents (to_index c ((pos : Int) + pat.length)) = .ok suf := by
  intro fuel
  induction fuel with
  | zero =>
    intro start ms h m hm
    simp only [matchesFromF] at h
    replace h : ([] : List Match) = ms := by simpa using h
    subst h
    simp at hm
  | succ fuel ih =>
    intro start ms h m hm
    simp only [matchesFromF] at h
    split at h
    · replace h : ([] : List Match) = ms := by simpa using h
      subst h
      simp at hm
    · rename_i pos hfind
      by_cases hlt : pos < toSizeT (to_index c c.search.rend)
      · rw [if_pos hlt] at h
        rcases hpre : preOf c.contents (to_index c (pos : Int)) with e | pre
        · rw [hpre] at h
          simp at h
        · rw [hpre] at h
          rcases hsuf : sufOf c.contents (to_index c ((pos : Int) + pat.length)) with e | suf
          · rw [hsuf] at h
            simp at h
          · rw [hsuf] at h
            rcases hrest : matchesFromF c pat fuel (pos + 1) with e | rest
            · rw [hrest] at h
              simp at h
            · rw [hrest] at h
              replace h :
                  (⟨c.file.path, (pos : Int), transform pre, transform suf⟩ : Match)
                    :: rest = ms := by
                simpa using h
              subst h
              rcases List.mem_cons.mp hm with hm | hm
              · exact ⟨pos, pre, suf, hm, hpre, hsuf⟩
              · exact ih (pos + 1) rest hrest m hm
      · rw [if_neg hlt] at h
        replace h : ([] : List Match) = ms := by simpa using h
        subst h
        simp at hm

/-- When the `prefix` helper returns without throwing at a non-negative
index, its result has at most `border_size = 3` characters. -/
theorem preOf_ok_length {s : List Char} {idx : Int} {t : List Char}
    (h : preOf s idx = .ok t) (h0 : 0 ≤ idx) : t.length ≤ 3 := by
  have hB : border_size = 3 := rfl
  unfold preOf substr at h
  have h1 : idx - border_size ≤ Max.max (idx - border_size) 0 := le_max_left _ _
  have h2 : (0 : Int) ≤ Max.max (idx - border_size) 0 := le_max_right _ _
  have h3 : Max.max (idx - border_size) 0 ≤ idx := max_le (by omega) h0
  dsimp only at h
  by_cases hc : s.length < toSizeT (Max.max (idx - border_size) 0)
  · rw [if_pos hc] at h
    exact absurd h (by simp)
  · rw [if_neg hc] at h
    have ht :
        (s.drop (toSizeT (Max.max (idx - border_size) 0))).take
          (toSizeT (idx - Max.max (idx - border_size) 0)) = t := Except.ok.inj h
    have hle3 : idx - Max.max (idx - border_size) 0 ≤ 3 := by omega
    have hcnt : toSizeT (idx - Max.max (idx - border_size) 0)
        = (idx - Max.max (idx - border_size) 0).toNat :=
      toSizeT_eq_toNat _ (by omega) (lt_of_le_of_lt hle3 (by norm_num))
    rw [← ht]
    refine le_trans (List.length_take_le _ _) ?_
    rw [hcnt]
    omega

/-- When the `suffix` helper returns without throwing, its result has at
most `border_size = 3` characters. -/
theorem sufOf_ok_length {s : List Char} {idx : Int} {t : List Char}
    (h : sufOf s idx = .ok t) : t.length ≤ 3 := by
  unfold sufOf substr at h
  by_cases hc : s.length < toSizeT idx
  · rw [if_pos hc] at h
    exact absurd h (by simp)
  · rw [if_neg hc] at h
    have ht : (s.drop (toSizeT idx)).take (toSizeT border_size) = t := Except.ok.inj h
    have hb : toSizeT border_size = 3 := by decide
    rw [← ht, hb]
    exact List.length_take_le 3 _

/-- The escaping expansion at most doubles the length. -/
theorem flatMap_escape_length (s : List Char) :
    (s.flatMap
      (fun c => if c = '\n' then ['\\', 'n'] else if c = '\t' then ['\\', 't'] else [c])).length
      ≤ 2 * s.length := by
  induction s with
  | nil => simp
  | cons c s ih =>
    rw [List.flatMap_cons, List.length_append]
    have hc : (if c = '\n' then ['\\', 'n'] else if c = '\t' then ['\\', 't'] else [c]).length
        ≤ 2 := by
      split_ifs <;> simp
    simp only [List.length_cons]
    omega

/-- The transform at most doubles the length of its input. -/
theorem transform_length_le (s : List Char) : (transform s).length ≤ 2 * s.length := by
  have htr : transform s = s.flatMap
      (fun c => if c = '\n' then ['\\', 'n'] else if c = '\t' then ['\\', 't'] else [c]) := by
    unfold transform
    simpa using transform_go s []
  rw [htr]
  exact flatMap_escape_length s


/-- C9 (amended): provided the matcher completes without the
out-of-range fault (it always does when `read.begin = 0`), it reports
overlapping occurrences individually — for every pair of overlapping
occurrences of the search string whose scan positions both lie in the
chunk's search window, both are reported, because the scan resumes at
`p + 1` after reporting position `p`. -/
theorem c9_overlaps_reported (c : FileChunk) (pat : List Char) (ms : List Match)
    (p q : Nat)
    (hok : matchesOf c pat = .ok ms)
    (hp : occursAt c.contents pat p) (hq : occursAt c.contents pat q)
    (hp1 : toSizeT (to_index c c.search.rbegin) ≤ p)
    (hp2 : p < toSizeT (to_index c c.search.rend))
    (hq1 : toSizeT (to_index c c.search.rbegin) ≤ q)
    (hq2 : q < toSizeT (to_index c c.search.rend))
    (hover1 : p < q) (hover2 : q < p + pat.length) :
    (p : Int) ∈ ms.map Match.position ∧ (q : Int) ∈ ms.map Match.position := by
  unfold matchesOf at hok
  exact ⟨matchesFromF_ok_mem c pat (c.contents.length + 1) _ ms (by omega) hok p hp hp1 hp2,
    matchesFromF_ok_mem c pat (c.contents.length + 1) _ ms (by omega) hok q hq hq1 hq2⟩

/-- Witness for C9 (amended): searching `aaa` for `aa`, positions 0 and 1
are both reported. -/
theorem c9_overlaps_reported_witness :
    matchesOf (fetch_contents ['a', 'a', 'a'] (FileChunk.ofSearch ⟨"f", 3⟩ ⟨0, 3⟩)) ['a', 'a']
      = .ok [⟨"f", 0, [], ['a']⟩, ⟨"f", 1, ['a'], []⟩] ∧
    ((0 : Int) ∈ ([⟨"f", 0, [], ['a']⟩, ⟨"f", 1, ['a'], []⟩] : List Match).map Match.position ∧
     (1 : Int) ∈ ([⟨"f", 0, [], ['a']⟩, ⟨"f", 1, ['a'], []⟩] : List Match).map Match.position) :=
  ⟨rfl,
    c9_overlaps_reported (fetch_contents ['a', 'a', 'a'] (FileChunk.ofSearch ⟨"f", 3⟩ ⟨0, 3⟩))
      ['a', 'a'] [⟨"f", 0, [], ['a']⟩, ⟨"f", 1, ['a'], []⟩] 0 1 rfl (by decide) (by decide)
      (by decide) (by decide) (by decide) (by decide) (by decide) (by decide)⟩

/-- Counterexample to C9 as stated: in the chunk with search range
`[10, 20)` of a 20-byte file (read range `[7, 20)`), the string `aa`
occurs at scan positions 3 and 4 — both inside the search window — yet
the matcher reports neither: it throws `std::out_of_range` while building
the context of the first match (`to_index` is applied to the already
content-local position, giving a negative `suffix` index), so the whole
call produces no match list at all. -/
theorem c9_overlap_counterexample :
    occursAt (fetch_contents (List.replicate 10 'b' ++ ('a' :: 'a' :: 'a' :: List.replicate 7 'b'))
        (FileChunk.ofSearch ⟨"f", 20⟩ ⟨10, 20⟩)).contents ['a', 'a'] 3 ∧
    occursAt (fetch_contents (List.replicate 10 'b' ++ ('a' :: 'a' :: 'a' :: List.replicate 7 'b'))
        (FileChunk.ofSearch ⟨"f", 20⟩ ⟨10, 20⟩)).contents ['a', 'a'] 4 ∧
    toSizeT (to_index
        (fetch_contents (List.replicate 10 'b' ++ ('a' :: 'a' :: 'a' :: List.replicate 7 'b'))
          (FileChunk.ofSearch ⟨"f", 20⟩ ⟨10, 20⟩))
        (fetch_contents (List.replicate 10 'b' ++ ('a' :: 'a' :: 'a' :: List.replicate 7 'b'))
          (FileChunk.ofSearch ⟨"f", 20⟩ ⟨10, 20⟩)).search.rbegin) ≤ 3 ∧
    (4 : Nat) < toSizeT (to_index
        (fetch_contents (List.replicate 10 'b' ++ ('a' :: 'a' :: 'a' :: List.replicate 7 'b'))
          (FileChunk.ofSearch ⟨"f", 20⟩ ⟨10, 20⟩))
        (fetch_contents (List.replicate 10 'b' ++ ('a' :: 'a' :: 'a' :: List.replicate 7 'b'))
          (FileChunk.ofSearch ⟨"f", 20⟩ ⟨10, 20⟩)).search.rend) ∧
    matchesOf (fetch_contents (List.replicate 10 'b' ++ ('a' :: 'a' :: 'a' :: List.replicate 7 'b'))
        (FileChunk.ofSearch ⟨"f", 20⟩ ⟨10, 20⟩)) ['a', 'a'] = .error () :=
  ⟨by decide, by decide, by decide, by decide, rfl⟩

/-- C5 (amended): for every match reported from a chunk whose read range
begins at offset `0`, the prefix and suffix are the escaping transform of
at most `border_size` characters, and the stored (escaped) strings have
at most `2 * border_size` characters. -/
theorem c5_context_bound (c : FileChunk) (pat : List Char) (ms : List Match) (m : Match)
    (hrb : c.read.rbegin = 0) (hok : matchesOf c pat = .ok ms) (hm : m ∈ ms) :
    (∃ pre, (pre.length : Int) ≤ border_size ∧ m.pre = transform pre) ∧
    (∃ suf, (suf.length : Int) ≤ border_size ∧ m.suf = transform suf) ∧
    (m.pre.length : Int) ≤ 2 * border_size ∧ (m.suf.length : Int) ≤ 2 * border_size := by
  have hB : border_size = 3 := rfl
  unfold matchesOf at hok
  obtain ⟨pos, pre, suf, hmeq, hpre, hsuf⟩ :=
    matchesFromF_ok_shape c pat (c.contents.length + 1)
      (toSizeT (to_index c c.search.rbegin)) ms hok m hm
  have hidx : to_index c (pos : Int) = (pos : Int) := by
    simp [to_index, hrb]
  rw [hidx] at hpre
  have hpre3 : pre.length ≤ 3 := preOf_ok_length hpre (Int.natCast_nonneg pos)
  have hsuf3 : suf.length ≤ 3 := sufOf_ok_length hsuf
  have hpre6 := transform_length_le pre
  have hsuf6 := transform_length_le suf
  subst hmeq
  refine ⟨⟨pre, by rw [hB]; exact_mod_cast hpre3, rfl⟩,
    ⟨suf, by rw [hB]; exact_mod_cast hsuf3, rfl⟩, ?_, ?_⟩
  · show ((transform pre).length : Int) ≤ 2 * border_size
    rw [hB]
    have h6 : (transform pre).length ≤ 6 := by omega
    exact_mod_cast h6
  · show ((transform suf).length : Int) ≤ 2 * border_size
    rw [hB]
    have h6 : (transform suf).length ≤ 6 := by omega
    exact_mod_cast h6

/-- Counterexample to C5 as stated: in a six-byte file `\n\n\nabc`
searched for `abc`, the reported match's prefix is the six characters
`\n\n\n` (escaped), which exceeds `border_size = 3`: the `BORDER` bound
holds before escaping, not after. -/
theorem c5_border_counterexample :
    matchesOf (fetch_contents ['\n', '\n', '\n', 'a', 'b', 'c']
        (FileChunk.ofSearch ⟨"f", 6⟩ ⟨0, 6⟩)) ['a', 'b', 'c']
      = .ok [⟨"f", 3, ['\\', 'n', '\\', 'n', '\\', 'n'], []⟩] ∧
    border_size < ((['\\', 'n', '\\', 'n', '\\', 'n'] : List Char).length : Int) :=
  ⟨rfl, by decide⟩

/-- Witness for C5 (amended) on the same six-byte file. -/
theorem c5_context_bound_witness :
    (fetch_contents ['\n', '\n', '\n', 'a', 'b', 'c']
        (FileChunk.ofSearch ⟨"f", 6⟩ ⟨0, 6⟩)).read.rbegin = 0 ∧
    matchesOf (fetch_contents ['\n', '\n', '\n', 'a', 'b', 'c']
        (FileChunk.ofSearch ⟨"f", 6⟩ ⟨0, 6⟩)) ['a', 'b', 'c']
      = .ok [⟨"f", 3, ['\\', 'n', '\\', 'n', '\\', 'n'], []⟩] ∧
    ((∃ pre, (pre.length : Int) ≤ border_size ∧
        Match.pre ⟨"f", 3, ['\\', 'n', '\\', 'n', '\\', 'n'], []⟩ = transform pre) ∧
     (∃ suf, (suf.length : Int) ≤ border_size ∧
        Match.suf ⟨"f", 3, ['\\', 'n', '\\', 'n', '\\', 'n'], []⟩ = transform suf) ∧
     ((Match.pre ⟨"f", 3, ['\\', 'n', '\\', 'n', '\\', 'n'], []⟩).length : Int)
        ≤ 2 * border_size ∧
     ((Match.suf ⟨"f", 3, ['\\', 'n', '\\', 'n', '\\', 'n'], []⟩).length : Int)
        ≤ 2 * border_size) :=
  ⟨rfl, rfl,
    c5_context_bound (fetch_contents ['\n', '\n', '\n', 'a', 'b', 'c']
        (FileChunk.ofSearch ⟨"f", 6⟩ ⟨0, 6⟩)) ['a', 'b', 'c']
      [⟨"f", 3, ['\\', 'n', '\\', 'n', '\\', 'n'], []⟩]
      ⟨"f", 3, ['\\', 'n', '\\', 'n', '\\', 'n'], []⟩ rfl rfl (by decide)⟩

/-- C1 (code bug): the chunk with search range `[10, 20)` of a 20-byte
file has read range `[7, 20)`; the string `yzw` occurs at absolute offset
17 (scan position 10 in the fetched content), and the matcher reports it
with `position = 10`, the content-local index, not the absolute offset
`read.begin + 10 = 17` that `Match::position`'s own documentation and the
specification promise. -/
theorem c1_position_is_local :
    matchesOf (fetch_contents (List.replicate 17 'a' ++ ('y' :: 'z' :: 'w' :: []))
        (FileChunk.ofSearch ⟨"f", 20⟩ ⟨10, 20⟩)) ['y', 'z', 'w']
      = .ok [⟨"f", 10, ['a', 'a', 'a'], ['a', 'a', 'a']⟩] ∧
    occursAt (fetch_contents (List.replicate 17 'a' ++ ('y' :: 'z' :: 'w' :: []))
        (FileChunk.ofSearch ⟨"f", 20⟩ ⟨10, 20⟩)).contents ['y', 'z', 'w'] 10 ∧
    (fetch_contents (List.replicate 17 'a' ++ ('y' :: 'z' :: 'w' :: []))
        (FileChunk.ofSearch ⟨"f", 20⟩ ⟨10, 20⟩)).read.rbegin = 7 ∧
    Match.position ⟨"f", 10, ['a', 'a', 'a'], ['a', 'a', 'a']⟩
      ≠ (fetch_contents (List.replicate 17 'a' ++ ('y' :: 'z' :: 'w' :: []))
          (FileChunk.ofSearch ⟨"f", 20⟩ ⟨10, 20⟩)).read.rbegin + 10 :=
  ⟨rfl, by decide, rfl, by decide⟩


/-- When the first hit at or after `start` already lies at or beyond the
search window's end, the `matches` loop stops with an empty result. -/
theorem matchesFromF_stop (c : FileChunk) (pat : List Char) (fuel start pos : Nat)
    (hfind : findFrom c.contents pat start = some pos)
    (hstop : ¬ pos < toSizeT (to_index c c.search.rend)) :
    matchesFromF c pat (fuel + 1) start = .ok [] := by
  simp only [matchesFromF]
  rw [hfind]
  dsimp only
  rw [if_neg hstop]

/-- C3 (code bug): in the 1000020-byte file `demoData`, the string `yzw`
starts exactly at the split offset 1000000.  The file splits into two
chunks; the occurrence lies in the second chunk's search interval with its
full text inside that chunk's content (read range `[999997, 1000020)`).
Yet the first chunk's matcher excludes it (its scan stops at the window
boundary) and the second chunk's matcher throws `std::out_of_range`
while building the match's context (`to_index` applied to the already
content-local scan position 3 yields a negative `suffix` index), so the
occurrence is reported by no chunk at all — not by exactly one. -/
theorem c3_boundary_match_lost :
    occursAt demoData ['y', 'z', 'w'] 1000000 ∧
    chunks ⟨"f", 1000020⟩
      = [FileChunk.ofSearch ⟨"f", 1000020⟩ ⟨0, 1000000⟩,
         FileChunk.ofSearch ⟨"f", 1000020⟩ ⟨1000000, 1000020⟩] ∧
    (1000000 : Int) + 3 ≤ (FileChunk.ofSearch ⟨"f", 1000020⟩ ⟨1000000, 1000020⟩).read.rend ∧
    matchesOf (fetch_contents demoData (FileChunk.ofSearch ⟨"f", 1000020⟩ ⟨0, 1000000⟩))
      ['y', 'z', 'w'] = .ok [] ∧
    matchesOf (fetch_contents demoData (FileChunk.ofSearch ⟨"f", 1000020⟩ ⟨1000000, 1000020⟩))
      ['y', 'z', 'w'] = .error () := by
  have hlenD : demoData.length = 1000020 := by
    unfold demoData
    rw [List.length_append, List.length_replicate]
    decide
  have hdrop : demoData.drop 1000000 = 'y' :: 'z' :: 'w' :: List.replicate 17 'x' := by
    unfold demoData
    exact List.drop_left' (by rw [List.length_replicate])
  have hcont0 : (fetch_contents demoData
      (FileChunk.ofSearch ⟨"f", 1000020⟩ ⟨0, 1000000⟩)).contents
      = List.replicate 1000000 'x' ++ ['y', 'z', 'w'] := by
    have h0 : (fetch_contents demoData
        (FileChunk.ofSearch ⟨"f", 1000020⟩ ⟨0, 1000000⟩)).contents
        = demoData.take 1000003 := rfl
    rw [h0]
    unfold demoData
    rw [show (1000003 : Nat) = (List.replicate 1000000 'x').length + 3 by
      rw [List.length_replicate]]
    rw [List.take_append]
    exact congrArg (fun t => List.replicate 1000000 'x' ++ t)
      (show List.take 3 ('y' :: 'z' :: 'w' :: List.replicate 17 'x') = ['y', 'z', 'w'] from rfl)
  have hlenC : (List.replicate 1000000 'x' ++ ['y', 'z', 'w'] : List Char).length
      = 1000003 := by
    rw [List.length_append, List.length_replicate]
    decide
  refine ⟨?_, ?_, by decide, ?_, ?_⟩
  · constructor
    · rw [hlenD]
      decide
    · rw [hdrop]
      rfl
  · rfl
  · have hf : findFrom (List.replicate 1000000 'x' ++ ['y', 'z', 'w']) ['y', 'z', 'w'] 0
        = some 1000000 := by
      apply findFrom_eq_some
      · exact Nat.zero_le _
      · constructor
        · rw [hlenC]
          decide
        · rw [List.drop_left' (by rw [List.length_replicate])]
          rfl
      · intro q hq0 hq hocc
        obtain ⟨hqlen, hqtake⟩ := hocc
        have hql : q < (List.replicate 1000000 'x' : List Char).length := by
          rw [List.length_replicate]
          omega
        have hqlt : q < (List.replicate 1000000 'x' ++ ['y', 'z', 'w']).length := by
          rw [hlenC]
          omega
        rw [List.drop_eq_getElem_cons hqlt] at hqtake
        obtain ⟨hhead, -⟩ := List.cons.inj
          (show (List.replicate 1000000 'x' ++ ['y', 'z', 'w'])[q]
              :: List.take 2 (List.drop (q + 1) (List.replicate 1000000 'x' ++ ['y', 'z', 'w']))
              = 'y' :: ['z', 'w'] from hqtake)
        rw [List.getElem_append_left hql, List.getElem_replicate] at hhead
        exact absurd hhead (by decide)
    have hfind0 : findFrom (fetch_contents demoData
        (FileChunk.ofSearch ⟨"f", 1000020⟩ ⟨0, 1000000⟩)).contents ['y', 'z', 'w'] 0
        = some 1000000 := by
      rw [hcont0]
      exact hf
    unfold matchesOf
    rw [show toSizeT (to_index
        (fetch_contents demoData (FileChunk.ofSearch ⟨"f", 1000020⟩ ⟨0, 1000000⟩))
        (fetch_contents demoData
          (FileChunk.ofSearch ⟨"f", 1000020⟩ ⟨0, 1000000⟩)).search.rbegin) = 0 from rfl]
    refine matchesFromF_stop _ _ _ 0 1000000 hfind0 ?_
    rw [show toSizeT (to_index
        (fetch_contents demoData (FileChunk.ofSearch ⟨"f", 1000020⟩ ⟨0, 1000000⟩))
        (fetch_contents demoData
          (FileChunk.ofSearch ⟨"f", 1000020⟩ ⟨0, 1000000⟩)).search.rend) = 1000000 from rfl]
    norm_num
  · have hsplitrep : (List.replicate 1000000 'x' : List Char)
        = List.replicate 999997 'x' ++ List.replicate 3 'x' := by
      rw [← List.replicate_add]
    have hdt : (demoData.drop 999997).take 23
        = 'x' :: 'x' :: 'x' :: 'y' :: 'z' :: 'w' :: List.replicate 17 'x' := by
      unfold demoData
      rw [hsplitrep, List.append_assoc, List.drop_left' (by rw [List.length_replicate]),
        List.take_of_length_le (by decide)]
      rfl
    have hc1 : fetch_contents demoData (FileChunk.ofSearch ⟨"f", 1000020⟩ ⟨1000000, 1000020⟩)
        = ⟨⟨"f", 1000020⟩, ⟨1000000, 1000020⟩, ⟨999997, 1000020⟩,
           'x' :: 'x' :: 'x' :: 'y' :: 'z' :: 'w' :: List.replicate 17 'x'⟩ :=
      congrArg (FileChunk.mk ⟨"f", 1000020⟩ ⟨1000000, 1000020⟩ ⟨999997, 1000020⟩) hdt
    rw [hc1]
    rfl


/-- C8: with the wrong argument count `main` prints the usage message and
exits with a failure status doing no work; when the path argument is
neither a regular file nor a directory it prints the diagnostic and exits
with a failure status doing no work; otherwise it exits with the success
status `0` after building and dispatching every chunk of every discovered
file, regardless of how many matches were found. -/
theorem c8_main_exit_behavior (fs : FileSystem) (argv : List String) :
    (argv.length ≠ 3 →
      (main fs argv).exit ≠ 0 ∧ (main fs argv).usage = true ∧
      (main fs argv).invalidPath = false ∧ (main fs argv).processed = 0) ∧
    (argv.length = 3 → fs.kind (argv.getD 1 "") ≠ PathKind.regularFile →
      fs.kind (argv.getD 1 "") ≠ PathKind.directory →
      (main fs argv).exit ≠ 0 ∧ (main fs argv).invalidPath = true ∧
      (main fs argv).usage = false ∧ (main fs argv).processed = 0) ∧
    (argv.length = 3 →
      (fs.kind (argv.getD 1 "") = PathKind.regularFile ∨
        fs.kind (argv.getD 1 "") = PathKind.directory) →
      (main fs argv).exit = 0 ∧ (main fs argv).usage = false ∧
      (main fs argv).invalidPath = false ∧
      ∃ fl, files fs (argv.getD 1 "") = some fl ∧
        (main fs argv).processed = (fl.map fun f => (chunks f).length).sum) := by
  refine ⟨?_, ?_, ?_⟩
  · intro h
    unfold main
    rw [if_pos h]
    exact ⟨by decide, rfl, rfl, rfl⟩
  · intro h1 h2 h3
    have hfiles : files fs (argv.getD 1 "") = none := by
      unfold files
      rw [if_neg h2, if_neg h3]
    unfold main
    rw [if_neg (fun hc => hc h1), hfiles]
    exact ⟨by decide, rfl, rfl, rfl⟩
  · intro h1 h2
    have hfl : ∃ fl, files fs (argv.getD 1 "") = some fl := by
      unfold files
      rcases h2 with h2 | h2
      · rw [if_pos h2]
        exact ⟨_, rfl⟩
      · by_cases hr : fs.kind (argv.getD 1 "") = PathKind.regularFile
        · rw [if_pos hr]
          exact ⟨_, rfl⟩
        · rw [if_neg hr, if_pos h2]
          exact ⟨_, rfl⟩
    obtain ⟨fl, hfl⟩ := hfl
    unfold main
    rw [if_neg (fun hc => hc h1), hfl]
    exact ⟨rfl, rfl, rfl, fl, rfl, rfl⟩

/-- Witness for C8 at three concrete invocations: one argument (usage
failure), an invalid path (diagnostic failure), and a regular file
(success). -/
theorem c8_main_exit_behavior_witness :
    (main ⟨fun _ => PathKind.other, fun _ => [], fun _ => 0⟩ ["p"]).exit ≠ 0 ∧
    (main ⟨fun _ => PathKind.other, fun _ => [], fun _ => 0⟩ ["p"]).usage = true ∧
    (main ⟨fun _ => PathKind.other, fun _ => [], fun _ => 0⟩ ["p", "q", "s"]).exit ≠ 0 ∧
    (main ⟨fun _ => PathKind.other, fun _ => [], fun _ => 0⟩
      ["p", "q", "s"]).invalidPath = true ∧
    (main ⟨fun _ => PathKind.regularFile, fun _ => [], fun _ => 5⟩ ["p", "q", "s"]).exit = 0 ∧
    (main ⟨fun _ => PathKind.regularFile, fun _ => [], fun _ => 5⟩
      ["p", "q", "s"]).usage = false := by
  obtain ⟨hA, -, -⟩ :=
    c8_main_exit_behavior ⟨fun _ => PathKind.other, fun _ => [], fun _ => 0⟩ ["p"]
  obtain ⟨-, hB, -⟩ :=
    c8_main_exit_behavior ⟨fun _ => PathKind.other, fun _ => [], fun _ => 0⟩ ["p", "q", "s"]
  obtain ⟨-, -, hC⟩ :=
    c8_main_exit_behavior ⟨fun _ => PathKind.regularFile, fun _ => [], fun _ => 5⟩
      ["p", "q", "s"]
  obtain ⟨a1, a2, -, -⟩ := hA (by decide)
  obtain ⟨b1, b2, -, -⟩ := hB (by decide) (by decide) (by decide)
  obtain ⟨c1, c2, -, -⟩ := hC (by decide) (Or.inl (by decide))
  exact ⟨a1, a2, b1, b2, c1, c2⟩

end minigrep
